import Mathlib

/-!
Verification development for the declarative configuration engine
(`config.nvim`).  The Rust sources are shallowly embedded: pure functions
become Lean functions, the host option store becomes an explicit record of
accessor maps, fallible code returns `Except`, Rust `HashMap`/`HashSet`
become association lists with insert-replace semantics (a concrete,
deterministic iteration order standing in for the unspecified hash order),
`i64` payloads become `Int` with every arithmetic result passed through an
explicit two's-complement wrap modulo 2^64 (Rust's release-mode overflow
semantics), and `f64` payloads become `Rat`, relied on only at inputs
where IEEE binary64 arithmetic is exact.
-/

namespace ConfigNvim

/-! ### Character-level string helpers

`str::split(sep)` splits on every separator and yields `[""]` on the empty
string; `str::split_once(sep)` splits at the first separator only.
-/

/-- Model of Rust `str::split(sep)` at the `List Char` level. -/
def splitOnChar (sep : Char) : List Char → List (List Char)
  | [] => [[]]
  | c :: cs =>
    let r := splitOnChar sep cs
    if c = sep then [] :: r
    else
      match r with
      | [] => [[c]]
      | h :: t => (c :: h) :: t

/-- Model of Rust `str::split_once(sep)` at the `List Char` level. -/
def splitOnceChar (sep : Char) : List Char → Option (List Char × List Char)
  | [] => none
  | c :: cs =>
    if c = sep then some ([], cs)
    else (splitOnceChar sep cs).map fun p => (c :: p.1, p.2)

/-- Association-list lookup: the model of `HashMap::get`. -/
def lookupA {α β : Type} [DecidableEq α] : List (α × β) → α → Option β
  | [], _ => none
  | p :: ps, k => if p.1 = k then some p.2 else lookupA ps k

/-- Association-list insert with replace-in-place on an existing key: the
model of `HashMap::insert` (a `HashMap` keeps one value per key; we keep
first-insertion order deterministically). -/
def insertReplace {α β : Type} [DecidableEq α] (m : List (α × β)) (k : α) (v : β) :
    List (α × β) :=
  if (lookupA m k).isSome then m.map fun p => if p.1 = k then (k, v) else p
  else m ++ [(k, v)]

/-- Model of `Iterator::collect::<HashMap<_, _>>`: later pairs win on key
collision. -/
def collectMap {α β : Type} [DecidableEq α] (l : List (α × β)) : List (α × β) :=
  l.foldl (fun acc p => insertReplace acc p.1 p.2) []

/-- Model of `Iterator::collect::<HashSet<char>>`: duplicate elements are
dropped (we keep first-occurrence order deterministically). -/
def collectSet (l : List Char) : List Char :=
  l.foldl (fun acc c => if c ∈ acc then acc else acc ++ [c]) []

/-- Model of `HashSet::extend`. -/
def extendSet (s : List Char) (l : List Char) : List Char :=
  l.foldl (fun acc c => if c ∈ acc then acc else acc ++ [c]) s

/-- Model of Rust `Vec::join(sep)` at the `List Char` level. -/
def joinSep (sep : Char) : List (List Char) → List Char
  | [] => []
  | [p] => p
  | p :: ps => p ++ sep :: joinSep sep ps

/-- Model of `itertools`' `partition_map`: send each `inl` to the first
component and each `inr` to the second, preserving order. -/
def partitionMap {α β γ : Type} (f : α → β ⊕ γ) : List α → List β × List γ
  | [] => ([], [])
  | a :: as =>
    let r := partitionMap f as
    match f a with
    | .inl b => (b :: r.1, r.2)
    | .inr c => (r.1, c :: r.2)

/-! ### Value model (`src/config/set.rs`) -/

/-- Alias for the host's booleans, usable where `SetValue`'s constructor
names shadow the builtin types. -/
abbrev HBool := Bool

/-- Alias for the host's strings, usable where `SetValue`'s constructor
names shadow the builtin types. -/
abbrev HString := String

/-- Model of Rust `str::replacen(pat, "", 1)` restricted to empty
replacement: drop the first occurrence of `pat`, at the `List Char`
level. -/
def dropFirstOcc (pat : List Char) : List Char → List Char
  | [] => []
  | c :: cs =>
    if pat.isPrefixOf (c :: cs) then (c :: cs).drop pat.length
    else c :: dropFirstOcc pat cs

/-- Type `SetValue` from `set.rs`: the closed tagged union of option values. -/
inductive SetValue : Type
  | Bool (b : Bool)
  | String (s : String)
  | Integer (i : Int)
  | Float (f : Rat)
  | List (l : List String)
  | Set (s : List Char)
  | Map (m : List (String × String))
deriving DecidableEq, Repr

/-- Type `Operation` from `set.rs`. -/
inductive Operation : Type
  | Append
  | Prepend
  | Remove
  | Assign
deriving DecidableEq, Repr

/-- A single set instruction `Set(key, operation, value)` from `set.rs`. -/
structure Set : Type where
  key : String
  op : Operation
  value : SetValue
deriving DecidableEq, Repr

/-- The host's raw `nvim_oxi::Object`, restricted to the kinds the embedded
code distinguishes. -/
inductive Object : Type
  | Nil
  | Boolean (b : Bool)
  | Integer (i : Int)
  | Float (f : Rat)
  | Str (s : String)
deriving DecidableEq, Repr

/-- Function `SetValue::from_option` (`set.rs` lines 120–167): parse the host's raw
object for an option into a `SetValue`, dispatching on the comma-list /
flag-list flags and otherwise on the object's native kind. -/
def SetValue.from_option (commalist flaglist : HBool) (name : HString)
    (object : Object) : Except HString SetValue :=
  if commalist then
    match object with
    | .Str s =>
      if name = "fillchars" ∨ name = "listchars" ∨ name = "winhl" then
        .ok (.Map (collectMap
          (((((splitOnChar ',' s.data).map String.mk).filter
              fun e => !(e == "")).filterMap fun entry =>
            (splitOnceChar ':' entry.data).map fun p =>
              (String.mk p.1, String.mk p.2)))))
      else .ok (.List ((splitOnChar ',' s.data).map String.mk))
    | _ => .error "from wrong type: expected string"
  else if flaglist then
    match object with
    | .Str s => .ok (.Set (collectSet s.data))
    | _ => .error "from wrong type: expected string"
  else
    match object with
    | .Boolean b => .ok (.Bool b)
    | .Float f => .ok (.Float f)
    | .Integer i => .ok (.Integer i)
    | _ => .error "from wrong type: expected string, boolean or float"

/-- The `impl ToObject for SetValue` (`set.rs` lines 170–186): serialize a
`SetValue` back into the host's raw representation. -/
def SetValue.to_object : SetValue → Object
  | .List v => .Str (String.mk (joinSep ',' (v.map String.data)))
  | .Map v => .Str (String.mk (joinSep ','
      (v.map fun p => p.1.data ++ ':' :: p.2.data)))
  | .Set v => .Str (String.mk v)
  | .Bool b => .Boolean b
  | .String s => .Str s
  | .Integer i => .Integer i
  | .Float f => .Float f

/-! ### Operation algebra (`Set::apply`, `set.rs` lines 209–314)

The `match (current, value, op)` block.  A `some next` means the branch
calls `set_option` with `next`; `none` is the fall-through arm that logs
"… is not supported" and performs no write.
-/

/-- Model of wrapping 64-bit signed arithmetic: reduce an `Int` into
`[-2^63, 2^63)` by a two's-complement wrap modulo `2^64`.  Rust `i64`
addition and subtraction wrap this way on overflow in release builds
(with overflow checks they panic instead; either way the mathematical
value is not produced at overflow). -/
def wrap64 (n : Int) : Int := (n + 2 ^ 63) % 2 ^ 64 - 2 ^ 63

/-- Model of Rust `current.iter().position(|v| v == &value)` followed by
`current.remove(index)`: remove the first occurrence only. -/
def removeFirst (current : List String) (value : String) : List String :=
  match current.findIdx? fun v => v = value with
  | some index => current.eraseIdx index
  | none => current

/-- The value-algebra match of `Set::apply`, in source order. -/
def applyMatch (current value : SetValue) (op : Operation) : Option SetValue :=
  match current, value, op with
  | .Set _, .List value, .Assign =>
      some (.Set (collectSet (value.flatMap String.data)))
  | _, value, .Assign => some value
  | .Float current, .Float value, .Append => some (.Float (current + value))
  | .Float current, .Float value, .Remove => some (.Float (value - current))
  | .Integer current, .Integer value, .Append =>
      some (.Integer (wrap64 (current + value)))
  | .Integer current, .Integer value, .Remove =>
      some (.Integer (wrap64 (value - current)))
  | .String current, .String value, .Append => some (.String (current ++ value))
  | .String current, .String value, .Prepend => some (.String (value ++ current))
  | .String current, .String value, .Remove =>
      some (.String (String.mk (dropFirstOcc value.data current.data)))
  | .List current, .List value, .Append => some (.List (current ++ value))
  | .List current, .List value, .Prepend => some (.List (value ++ current))
  | .List current, .List values, .Remove =>
      some (.List (values.foldl removeFirst current))
  | .List current, .String value, .Append => some (.List (current ++ [value]))
  | .List current, .String value, .Prepend => some (.List (value :: current))
  | .List current, .String value, .Remove => some (.List (removeFirst current value))
  | .Set current, .String value, .Append => some (.Set (extendSet current value.data))
  | .Set current, .String value, .Prepend => some (.Set (extendSet current value.data))
  | .Set current, .String value, .Remove =>
      some (.Set (current.filter fun v => !(value.data.contains v)))
  | .Set current, .List value, .Append =>
      some (.Set (extendSet current (value.flatMap String.data)))
  | .Set current, .List value, .Prepend =>
      some (.Set (extendSet current (value.flatMap String.data)))
  | .Set current, .List values, .Remove =>
      some (.Set (values.foldl
        (fun cur value => cur.filter fun v => !(value.data.contains v)) current))
  | .Map current, .Map value, .Append =>
      some (.Map (value.foldl (fun acc p => insertReplace acc p.1 p.2) current))
  | .Map current, .Map value, .Prepend =>
      some (.Map (value.foldl (fun acc p => insertReplace acc p.1 p.2) current))
  | .Map current, .List values, .Remove =>
      some (.Map (values.foldl (fun acc value => acc.filter fun p => !(p.1 == value))
        current))
  | .Map current, .String value, .Remove =>
      some (.Map (current.filter fun p => !(p.1 == value)))
  | _, _, _ => none

/-! ### Scope resolution and the option store (`set.rs` lines 322–392)

The host exposes four distinct accessor families; we model the store as one
record with one association list per accessor.  `api::set_option` /
`get_option_value(scope=Global)` touch `global`; `Buffer::current()`
accessors touch `buflocal`; `Window::current()` accessors touch `winlocal`;
`set_option_value(scope=Local)` / `get_option_value(scope=Local)` touch
`localOpt`. -/

/-- Type `nvim_oxi::api::types::OptionScope`; `Other` stands for any variant the
code's `_` arm rejects. -/
inductive OptionScope : Type
  | Buffer
  | Global
  | Window
  | Other (s : HString)
deriving DecidableEq, Repr

/-- The fields of `OptionInfos` that `Set::apply` destructures. -/
structure OptionInfos : Type where
  commalist : HBool
  flaglist : HBool
  name : HString
  scope : OptionScope
deriving DecidableEq, Repr

/-- The host's option store: one map per accessor family. -/
structure Store : Type where
  global : List (HString × Object)
  buflocal : List (HString × Object)
  winlocal : List (HString × Object)
  localOpt : List (HString × Object)
deriving DecidableEq, Repr

/-- Accessor `api::set_option(name, value)`: the true global accessor. -/
def Store.writeGlobal (st : Store) (name : HString) (value : SetValue) : Store :=
  { st with global := insertReplace st.global name value.to_object }

/-- Accessor `Buffer::current().set_option(name, value)`. -/
def Store.writeBuf (st : Store) (name : HString) (value : SetValue) : Store :=
  { st with buflocal := insertReplace st.buflocal name value.to_object }

/-- Accessor `Window::current().set_option(name, value)`. -/
def Store.writeWin (st : Store) (name : HString) (value : SetValue) : Store :=
  { st with winlocal := insertReplace st.winlocal name value.to_object }

/-- Accessor `api::set_option_value(name, value, scope=Local)`. -/
def Store.writeLocalOpt (st : Store) (name : HString) (value : SetValue) : Store :=
  { st with localOpt := insertReplace st.localOpt name value.to_object }

/-- Read one accessor map; a missing entry models a failed host read. -/
def readAcc (acc : List (HString × Object)) (name : HString) :
    Except HString Object :=
  match lookupA acc name with
  | some object => .ok object
  | none => .error ("no value for " ++ name)

/-- The Rust function `set_option(scope, buffer)` (`set.rs` lines 322–360): choose the write
accessor from the option's scope and the application context, or fail on an
unsupported scope.  The `Buffer if !buffer` arm writes BOTH the true global
accessor and the current buffer's accessor, in that order. -/
def setOption (scope : OptionScope) (buffer : HBool) :
    Except HString (HString → SetValue → Store → Store) :=
  match scope with
  | .Buffer =>
    if !buffer then .ok fun name value st => (st.writeGlobal name value).writeBuf name value
    else .ok fun name value st => st.writeBuf name value
  | .Global =>
    if buffer then .ok fun name value st => st.writeLocalOpt name value
    else .ok fun name value st => st.writeGlobal name value
  | .Window => .ok fun name value st => st.writeWin name value
  | .Other s => .error ("Unsuported Option scope: " ++ s)

/-- The Rust function `get_option(scope, buffer)` (`set.rs` lines 362–392): choose the read
accessor, or fail on an unsupported scope. -/
def getOption (scope : OptionScope) (buffer : HBool) :
    Except HString (HString → Store → Except HString Object) :=
  match scope with
  | .Buffer => .ok fun name st => readAcc st.buflocal name
  | .Global =>
    if buffer then .ok fun name st => readAcc st.localOpt name
    else .ok fun name st => readAcc st.global name
  | .Window => .ok fun name st => readAcc st.winlocal name
  | .Other s => .error ("Unsuported Option scope: " ++ s)

/-- Function `Set::apply` (`set.rs` lines 189–319).  `infos` models
`api::get_option_info`; its failure arm (`do_on_error!`) logs and returns
`Ok(())`.  Scope and read errors propagate with `?`; an unmatched algebra
combination logs and performs no write; a host write error is swallowed by
the final `or_else` (our write accessors are total). -/
def Set.apply (infos : HString → Option OptionInfos) (buffer : HBool)
    (s : Set) (st : Store) : Except HString Store :=
  match infos s.key with
  | none => .ok st
  | some info => do
    let setter ← setOption info.scope buffer
    let getter ← getOption info.scope buffer
    let object ← getter s.key st
    let current ← SetValue.from_option info.commalist info.flaglist info.name object
    match applyMatch current s.value s.op with
    | some next => .ok (setter s.key next st)
    | none => .ok st

/-! ### Conditions and fragments (`condition.rs`, `mod.rs`) -/

/-- Type `Condition` from `condition.rs`: an attribute (filetype) mapped to a
list of candidate values; the empty list is the default/no-condition
marker (`Condition::default()`). -/
structure Condition : Type where
  filetype : List HString
deriving DecidableEq, Repr

/-- Value `Condition::default()` from the `Default` derive. -/
def Condition.default : Condition := ⟨[]⟩

/-- The `impl IntoIterator for Condition` (`condition.rs` lines 32–46):
decompose into one single-value Condition per candidate value. -/
def Condition.into_iter (c : Condition) : List Condition :=
  c.filetype.map fun filetype => ⟨[filetype]⟩

/-- Type `Keys` from `keys.rs` (the `Mode` enum of the host is modelled as a
string). -/
structure Keys : Type where
  modes : List HString
  recursive : HBool
  command : HBool
  lua : HBool
  silent : HBool
  unique : HBool
  expression : HBool
  leader : HString
  mappings_ : List (HString × HString)
  mappings : List (HString × HString)
deriving DecidableEq, Repr

/-- Type `AutoCommand` from `mod.rs`. -/
structure AutoCommand : Type where
  triggers : List HString
  cmd : List HString
  lua : List HString
  pattern : Option HString
deriving DecidableEq, Repr

/-- Type `Config` from `mod.rs`: one source document's fragment. -/
structure Config : Type where
  conditions : List Condition
  keys : List Keys
  set : List Set
  auto_commands : List AutoCommand
deriving DecidableEq, Repr

/-- The `Merge` derive on `Config`: `conditions` is skipped (left value
kept), the three sequence fields use `merge::vec::append`, i.e. left ++
right. -/
def Config.merge (self other : Config) : Config :=
  { conditions := self.conditions
    keys := self.keys ++ other.keys
    set := self.set ++ other.set
    auto_commands := self.auto_commands ++ other.auto_commands }

/-- Function `Config::merge_into_hashmap` (`mod.rs` lines 53–75): decompose the
fragment's conditions; with none, merge into the default bucket, otherwise
merge a copy into each atomic condition's bucket.  The Rust `HashMap` is an
association list with insert-replace (`insertReplace`) semantics. -/
def Config.merge_into_hashmap (self : Config)
    (hash_map : List (Condition × Config)) : List (Condition × Config) :=
  let conditions := self.conditions.flatMap Condition.into_iter
  if conditions.isEmpty then
    match lookupA hash_map Condition.default with
    | some config => insertReplace hash_map Condition.default (config.merge self)
    | none => hash_map ++ [(Condition.default, self)]
  else
    conditions.foldl
      (fun m condition =>
        match lookupA m condition with
        | some config => insertReplace m condition (config.merge self)
        | none => m ++ [(condition, self)])
      hash_map

/-- The `for set in &self.set { set.apply(buffer)? }` loop of
`Config::apply` (`mod.rs` lines 99–101): apply each set instruction in
order, propagating the first error. -/
def Config.applySets (infos : HString → Option OptionInfos) (buffer : HBool)
    (sets : List Set) (st : Store) : Except HString Store :=
  match sets with
  | [] => .ok st
  | s :: rest => do
    let st' ← s.apply infos buffer st
    Config.applySets infos buffer rest st'

/-! ### Trust ledger (`hashes.rs`) -/

/-- Type `Hashes` from `hashes.rs`: the persisted path → digest ledger.  The
SHA-512 implementation is external (`sha2` crate); each operation takes the
digest function as an explicit parameter. -/
structure Hashes : Type where
  entries : List (HString × List Nat)
deriving DecidableEq, Repr

/-- Function `Hashes::is_hashed` (`hashes.rs` lines 21–30): a path is trusted iff
the ledger holds a digest for it equal to the digest of its current
content. -/
def Hashes.is_hashed (digest : HString → List Nat) (h : Hashes)
    (path : HString) (config : HString) : HBool :=
  match lookupA h.entries path with
  | some hash => hash == digest config
  | none => false

/-- Function `Hashes::add_hash` (`hashes.rs` lines 31–37): record the digest of the
given content for the path, overwriting any previous entry. -/
def Hashes.add_hash (digest : HString → List Nat) (h : Hashes)
    (path : HString) (config : HString) : Hashes :=
  ⟨insertReplace h.entries path (digest config)⟩

/-- Functions `Hashes::unhashed` / `unhashed_files` (`hashes.rs` lines 43–54,
`lib.rs` lines 614–625): partition sources into (unknown paths, trusted
configs). -/
def Hashes.unhashed (digest : HString → List Nat) (h : Hashes)
    (files : List (HString × HString × Config)) :
    List HString × List Config :=
  partitionMap (fun f =>
    if h.is_hashed digest f.1 f.2.1 then Sum.inr f.2.2 else Sum.inl f.1) files

/-- The ledger-loading closure of `load_config` (`lib.rs` lines 668–670,
matching `Hashes::load`): reading the ledger file (`raw`, `none` when
absent) and deserializing it (`decode`, `none` on a parse failure) both
fall back to the empty ledger via `unwrap_or_default`; the result type has
no error case. -/
def Hashes.loadOrDefault (raw : Option (List Nat))
    (decode : List Nat → Option Hashes) : Hashes :=
  (match raw with
    | none => none
    | some bytes => decode bytes).getD ⟨[]⟩

/-! ### Flag-form set entries (`set.rs` lines 26–48) -/

/-- Model of Rust `str::strip_prefix("no")`, at the character level. -/
def stripPrefixNo (name : HString) : Option HString :=
  if ['n', 'o'].isPrefixOf name.data then some (String.mk (name.data.drop 2))
  else none

/-- The `SetDeserializer::Flag(name)` branch of
`From<SetDeserializer> for Vec<Set>` (`set.rs` lines 29–35): a bare string
becomes an assignment of `false` to the name with its leading "no"
stripped, or of `true` to the name itself. -/
def setFromFlag (name : HString) : List Set :=
  match stripPrefixNo name with
  | some name => [⟨name, .Assign, .Bool false⟩]
  | none => [⟨name, .Assign, .Bool true⟩]

/-- An empty fragment, used as a concrete fixture. -/
def emptyConfig : Config := ⟨[], [], [], []⟩

/-- Fixture: option metadata for a buffer-scoped boolean option named
"spell". -/
def bufInfos : HString → Option OptionInfos :=
  fun k => if k = "spell" then some ⟨false, false, "spell", .Buffer⟩ else none

/-- Fixture: a store where both the global and the buffer accessor hold
`spell = false`. -/
def bufStore : Store :=
  ⟨[("spell", .Boolean false)], [("spell", .Boolean false)], [], []⟩

/-- Fixture: option metadata where "badopt" resolves to an unsupported
scope and "wrap" to a supported global boolean. -/
def badScopeInfos : HString → Option OptionInfos :=
  fun k =>
    if k = "badopt" then some ⟨false, false, "badopt", .Other "Local"⟩
    else if k = "wrap" then some ⟨false, false, "wrap", .Global⟩
    else none

/-- Fixture: a store whose global accessor holds `wrap = false`. -/
def wrapStore : Store := ⟨[("wrap", .Boolean false)], [], [], []⟩

/-! ## Association-list and partition lemmas -/

theorem lookupA_map_replace {α β : Type} [DecidableEq α]
    (m : List (α × β)) (k : α) (v : β) :
    lookupA (m.map fun p => if p.1 = k then (k, v) else p) k =
      if (lookupA m k).isSome then some v else none := by
  induction m with
  | nil => rfl
  | cons p ps ih =>
    by_cases h : p.1 = k
    · simp [lookupA, h]
    · simp only [List.map_cons, if_neg h, lookupA, ih]

theorem lookupA_map_replace_ne {α β : Type} [DecidableEq α]
    (m : List (α × β)) (k k' : α) (v : β) (h : k' ≠ k) :
    lookupA (m.map fun p => if p.1 = k then (k, v) else p) k' = lookupA m k' := by
  induction m with
  | nil => rfl
  | cons p ps ih =>
    by_cases hp : p.1 = k
    · simp [lookupA, hp, Ne.symm h, ih]
    · simp [lookupA, if_neg hp, ih]

theorem lookupA_append_single {α β : Type} [DecidableEq α]
    (m : List (α × β)) (k k' : α) (v : β) :
    lookupA (m ++ [(k, v)]) k' =
      ((lookupA m k').orElse fun _ => if k = k' then some v else none) := by
  induction m with
  | nil => simp [lookupA]
  | cons p ps ih =>
    by_cases hp : p.1 = k'
    · simp [lookupA, hp]
    · simp [lookupA, hp, ih]

theorem lookupA_insertReplace_self {α β : Type} [DecidableEq α]
    (m : List (α × β)) (k : α) (v : β) :
    lookupA (insertReplace m k v) k = some v := by
  unfold insertReplace
  split
  · next h => rw [lookupA_map_replace, if_pos h]
  · next h =>
    rw [lookupA_append_single]
    rcases hl : lookupA m k with _ | w
    · simp
    · rw [hl] at h
      simp at h

theorem lookupA_insertReplace_ne {α β : Type} [DecidableEq α]
    (m : List (α × β)) (k k' : α) (v : β) (h : k' ≠ k) :
    lookupA (insertReplace m k v) k' = lookupA m k' := by
  unfold insertReplace
  split
  · exact lookupA_map_replace_ne m k k' v h
  · rw [lookupA_append_single, if_neg (Ne.symm h)]
    rcases lookupA m k' with _ | w <;> rfl

theorem mem_partitionMap_left {α β γ : Type} (g : α → β ⊕ γ)
    (l : List α) (a : α) (b : β) (ha : a ∈ l) (hg : g a = .inl b) :
    b ∈ (partitionMap g l).1 := by
  induction l with
  | nil => cases ha
  | cons x xs ih =>
    rcases List.mem_cons.mp ha with h | h
    · subst h
      simp [partitionMap, hg]
    · unfold partitionMap
      rcases hx : g x with b' | c'
      · simpa using Or.inr (ih h)
      · simpa using ih h

/-! ## Split / join lemmas for the round-trip law -/

theorem splitOnChar_ne_nil (sep : Char) (cs : List Char) :
    splitOnChar sep cs ≠ [] := by
  cases cs with
  | nil => simp [splitOnChar]
  | cons c cs =>
    simp only [splitOnChar]
    split
    · simp
    · rcases splitOnChar sep cs with _ | ⟨h, t⟩ <;> simp

theorem splitOnChar_not_mem (sep : Char) (cs : List Char) :
    ∀ p ∈ splitOnChar sep cs, sep ∉ p := by
  induction cs with
  | nil => intro p hp; simp [splitOnChar] at hp; simp [hp]
  | cons c cs ih =>
    intro p hp
    simp only [splitOnChar] at hp
    by_cases hc : c = sep
    · rw [if_pos hc] at hp
      rcases List.mem_cons.mp hp with rfl | h
      · simp
      · exact ih p h
    · rw [if_neg hc] at hp
      rcases hr : splitOnChar sep cs with _ | ⟨h, t⟩
      · exact absurd hr (splitOnChar_ne_nil sep cs)
      · rw [hr] at hp
        rcases List.mem_cons.mp hp with rfl | hmem
        · intro hin
          rcases List.mem_cons.mp hin with rfl | hin
          · exact hc rfl
          · exact ih h (hr ▸ List.mem_cons_self h t) hin
        · exact ih p (hr ▸ List.mem_cons_of_mem h hmem)

theorem splitOnChar_no_sep (sep : Char) (cs : List Char) (h : sep ∉ cs) :
    splitOnChar sep cs = [cs] := by
  induction cs with
  | nil => rfl
  | cons c cs ih =>
    have hc : ¬ c = sep := fun e => h (e ▸ List.mem_cons_self c cs)
    simp only [splitOnChar, if_neg hc,
      ih (fun m => h (List.mem_cons_of_mem c m))]

theorem splitOnChar_append (sep : Char) (xs rest : List Char) (h : sep ∉ xs) :
    splitOnChar sep (xs ++ sep :: rest) = xs :: splitOnChar sep rest := by
  induction xs with
  | nil => simp [splitOnChar]
  | cons a xs ih =>
    have ha : ¬ a = sep := fun e => h (e ▸ List.mem_cons_self a xs)
    have hr := ih (fun m => h (List.mem_cons_of_mem a m))
    simp only [List.cons_append, splitOnChar, if_neg ha, List.append_eq, hr]

theorem splitOnChar_joinSep (sep : Char) (parts : List (List Char))
    (hne : parts ≠ []) (hsep : ∀ p ∈ parts, sep ∉ p) :
    splitOnChar sep (joinSep sep parts) = parts := by
  induction parts with
  | nil => exact absurd rfl hne
  | cons p ps ih =>
    cases ps with
    | nil =>
      simp only [joinSep]
      exact splitOnChar_no_sep sep p (hsep p (List.mem_cons_self p []))
    | cons q rest =>
      have hjoin : joinSep sep (p :: q :: rest) = p ++ sep :: joinSep sep (q :: rest) :=
        rfl
      rw [hjoin, splitOnChar_append sep p _ (hsep p (List.mem_cons_self p _)),
        ih (by simp) (fun r hr => hsep r (List.mem_cons_of_mem p hr))]

theorem splitOnceChar_append (sep : Char) (k v : List Char) (h : sep ∉ k) :
    splitOnceChar sep (k ++ sep :: v) = some (k, v) := by
  induction k with
  | nil => simp [splitOnceChar]
  | cons a ks ih =>
    have ha : ¬ a = sep := fun e => h (e ▸ List.mem_cons_self a ks)
    simp only [List.cons_append, splitOnceChar, if_neg ha, List.append_eq,
      ih (fun m => h (List.mem_cons_of_mem a m)), Option.map_some']

theorem splitOnceChar_sound (sep : Char) (cs : List Char) :
    ∀ a b, splitOnceChar sep cs = some (a, b) → sep ∉ a ∧ cs = a ++ sep :: b := by
  induction cs with
  | nil => intro a b h; simp [splitOnceChar] at h
  | cons c cs ih =>
    intro a b h
    simp only [splitOnceChar] at h
    by_cases hc : c = sep
    · rw [if_pos hc] at h
      simp only [Option.some.injEq, Prod.mk.injEq] at h
      obtain ⟨rfl, rfl⟩ := h
      subst hc
      exact ⟨List.not_mem_nil c, rfl⟩
    · rw [if_neg hc] at h
      rcases ho : splitOnceChar sep cs with _ | p
      · rw [ho] at h; simp only [Option.map_none'] at h; exact absurd h (by simp)
      · rw [ho] at h
        simp only [Option.map_some', Option.some.injEq, Prod.mk.injEq] at h
        obtain ⟨rfl, rfl⟩ := h
        obtain ⟨hs, heq⟩ := ih p.1 p.2 ho
        refine ⟨?_, by rw [List.cons_append, ← heq]⟩
        intro hmem
        rcases List.mem_cons.mp hmem with e | hm
        · exact hc e.symm
        · exact hs hm

/-! ## Collection (HashMap / HashSet) lemmas -/

theorem mem_insertReplace {α β : Type} [DecidableEq α] (m : List (α × β))
    (k : α) (v : β) (p : α × β) (hp : p ∈ insertReplace m k v) :
    p ∈ m ∨ p = (k, v) := by
  unfold insertReplace at hp
  split at hp
  · obtain ⟨q, hq, he⟩ := List.mem_map.mp hp
    by_cases h : q.1 = k
    · right; rw [← he, if_pos h]
    · left; rwa [← he, if_neg h]
  · rcases List.mem_append.mp hp with h | h
    · exact Or.inl h
    · right; simpa using h

theorem mem_foldl_insertReplace {α β : Type} [DecidableEq α]
    (l : List (α × β)) : ∀ (acc : List (α × β)) (p : α × β),
    p ∈ l.foldl (fun acc q => insertReplace acc q.1 q.2) acc →
    p ∈ acc ∨ p ∈ l := by
  induction l with
  | nil => intro acc p hp; exact Or.inl hp
  | cons q qs ih =>
    intro acc p hp
    simp only [List.foldl_cons] at hp
    rcases ih _ p hp with h | h
    · rcases mem_insertReplace _ _ _ _ h with h2 | h2
      · exact Or.inl h2
      · right; rw [h2]; exact List.mem_cons_self q qs
    · exact Or.inr (List.mem_cons_of_mem q h)

theorem mem_collectMap {α β : Type} [DecidableEq α] (l : List (α × β))
    (p : α × β) (hp : p ∈ collectMap l) : p ∈ l := by
  rcases mem_foldl_insertReplace l [] p hp with h | h
  · simp at h
  · exact h

theorem keys_map_replace {α β : Type} [DecidableEq α] (m : List (α × β))
    (k : α) (v : β) :
    ((m.map fun p => if p.1 = k then (k, v) else p).map Prod.fst) =
      m.map Prod.fst := by
  rw [List.map_map]
  congr 1
  funext p
  by_cases h : p.1 = k <;> simp [h]

theorem lookupA_eq_none {α β : Type} [DecidableEq α] (m : List (α × β))
    (k : α) : lookupA m k = none ↔ k ∉ m.map Prod.fst := by
  induction m with
  | nil => simp [lookupA]
  | cons p ps ih =>
    simp only [lookupA, List.map_cons, List.mem_cons]
    by_cases h : p.1 = k
    · simp [h]
    · simp [h, ih, Ne.symm h]

theorem nodupKeys_insertReplace {α β : Type} [DecidableEq α]
    (m : List (α × β)) (k : α) (v : β) (h : (m.map Prod.fst).Nodup) :
    ((insertReplace m k v).map Prod.fst).Nodup := by
  unfold insertReplace
  split
  · rw [keys_map_replace]; exact h
  · next hl =>
    have hk : k ∉ m.map Prod.fst :=
      (lookupA_eq_none m k).mp (by simpa using hl)
    rw [List.map_append, List.nodup_append]
    refine ⟨h, by simp, ?_⟩
    intro a ha hb
    simp only [List.map_cons, List.map_nil, List.mem_singleton] at hb
    exact hk (hb ▸ ha)

theorem nodupKeys_foldl_insertReplace {α β : Type} [DecidableEq α]
    (l : List (α × β)) : ∀ acc : List (α × β), (acc.map Prod.fst).Nodup →
    ((l.foldl (fun acc q => insertReplace acc q.1 q.2) acc).map Prod.fst).Nodup := by
  induction l with
  | nil => intro acc h; exact h
  | cons q qs ih => intro acc h; exact ih _ (nodupKeys_insertReplace _ _ _ h)

theorem nodupKeys_collectMap {α β : Type} [DecidableEq α] (l : List (α × β)) :
    ((collectMap l).map Prod.fst).Nodup :=
  nodupKeys_foldl_insertReplace l [] (by simp)

theorem foldl_insertReplace_of_nodup {α β : Type} [DecidableEq α]
    (l : List (α × β)) : ∀ acc : List (α × β),
    ((acc ++ l).map Prod.fst).Nodup →
    l.foldl (fun acc q => insertReplace acc q.1 q.2) acc = acc ++ l := by
  induction l with
  | nil => intro acc h; simp
  | cons q qs ih =>
    intro acc h
    simp only [List.foldl_cons]
    have hq : q.1 ∉ acc.map Prod.fst := by
      intro hmem
      rw [List.map_append, List.nodup_append] at h
      exact h.2.2 hmem (by simp)
    have hins : insertReplace acc q.1 q.2 = acc ++ [q] := by
      unfold insertReplace
      rw [if_neg (by simp [(lookupA_eq_none acc q.1).mpr hq])]
    rw [hins, ih (acc ++ [q]) (by simpa using h)]
    simp

theorem collectMap_of_nodupKeys {α β : Type} [DecidableEq α]
    (l : List (α × β)) (h : (l.map Prod.fst).Nodup) : collectMap l = l := by
  simpa using foldl_insertReplace_of_nodup l [] (by simpa using h)

theorem nodup_foldl_insertChar (l : List Char) : ∀ acc : List Char, acc.Nodup →
    (l.foldl (fun acc c => if c ∈ acc then acc else acc ++ [c]) acc).Nodup := by
  induction l with
  | nil => intro acc h; exact h
  | cons c cs ih =>
    intro acc h
    simp only [List.foldl_cons]
    by_cases hc : c ∈ acc
    · rw [if_pos hc]; exact ih acc h
    · rw [if_neg hc]
      refine ih _ ?_
      rw [List.nodup_append]
      exact ⟨h, by simp, fun a ha hb => hc ((List.mem_singleton.mp hb) ▸ ha)⟩

theorem foldl_insertChar_of_nodup (l : List Char) : ∀ acc : List Char,
    (acc ++ l).Nodup →
    l.foldl (fun acc c => if c ∈ acc then acc else acc ++ [c]) acc = acc ++ l := by
  induction l with
  | nil => intro acc h; simp
  | cons c cs ih =>
    intro acc h
    have hc : c ∉ acc := by
      intro hmem
      rw [List.nodup_append] at h
      exact h.2.2 hmem (by simp)
    simp only [List.foldl_cons, if_neg hc]
    rw [ih (acc ++ [c]) (by simpa using h)]
    simp

theorem collectSet_nodup (l : List Char) : (collectSet l).Nodup :=
  nodup_foldl_insertChar l [] (by simp)

theorem collectSet_of_nodup (l : List Char) (h : l.Nodup) : collectSet l = l := by
  simpa using foldl_insertChar_of_nodup l [] (by simpa using h)

/-! ## Round-trip branch lemmas -/

theorem filterMap_some_of_mem {α : Type} (l : List α) (f : α → Option α)
    (h : ∀ a ∈ l, f a = some a) : l.filterMap f = l := by
  induction l with
  | nil => rfl
  | cons a as ih =>
    rw [List.filterMap_cons, h a (List.mem_cons_self a as),
      ih fun b hb => h b (List.mem_cons_of_mem a hb)]

/-- Every map entry parsed by the comma-list Map branch has a comma-free
key, a comma-free value, and a colon-free key. -/
theorem mem_parsed_pairs (s : List Char) (p : HString × HString)
    (hp : p ∈ ((((splitOnChar ',' s).map String.mk).filter
        fun e => !(e == "")).filterMap fun entry =>
      (splitOnceChar ':' entry.data).map fun q =>
        (String.mk q.1, String.mk q.2)) ) :
    ',' ∉ p.1.data ∧ ',' ∉ p.2.data ∧ ':' ∉ p.1.data := by
  obtain ⟨entry, hentry, hsome⟩ := List.mem_filterMap.mp hp
  obtain ⟨q, hq, hfq⟩ := Option.map_eq_some'.mp hsome
  obtain ⟨part, hpart, rfl⟩ := List.mem_map.mp (List.mem_filter.mp hentry).1
  have hcomma : ',' ∉ part := splitOnChar_not_mem ',' s part hpart
  obtain ⟨hcolon, heq⟩ := splitOnceChar_sound ':' part q.1 q.2 hq
  subst hfq
  refine ⟨?_, ?_, hcolon⟩
  · intro hm
    exact hcomma (heq ▸ List.mem_append.mpr (Or.inl hm))
  · intro hm
    exact hcomma (heq ▸ List.mem_append.mpr (Or.inr (List.mem_cons_of_mem _ hm)))

theorem filter_map_entries (M : List (HString × HString)) :
    ((M.map fun p => String.mk (p.1.data ++ ':' :: p.2.data)).filter
      fun e => !(e == "")) =
      M.map fun p => String.mk (p.1.data ++ ':' :: p.2.data) := by
  rw [List.filter_eq_self]
  intro e he
  obtain ⟨p, hp, rfl⟩ := List.mem_map.mp he
  simp [String.ext_iff]

theorem filterMap_map_entries (M : List (HString × HString))
    (hM : ∀ p ∈ M, ':' ∉ p.1.data) :
    ((M.map fun p => String.mk (p.1.data ++ ':' :: p.2.data)).filterMap
      fun entry => (splitOnceChar ':' entry.data).map fun q =>
        (String.mk q.1, String.mk q.2)) = M := by
  rw [List.filterMap_map]
  apply filterMap_some_of_mem
  intro p hp
  show (splitOnceChar ':' (String.mk (p.1.data ++ ':' :: p.2.data)).data).map _ =
    some p
  rw [show (String.mk (p.1.data ++ ':' :: p.2.data)).data =
    p.1.data ++ ':' :: p.2.data from rfl]
  rw [splitOnceChar_append ':' p.1.data p.2.data (hM p hp)]
  rfl

theorem map_data_mk (l : List (List Char)) :
    (l.map String.mk).map String.data = l := by
  rw [List.map_map]
  exact List.map_id l

/-- Unfolding equation: `from_option` on a comma-list option applied to a
raw string. -/
theorem from_option_commalist (fl : HBool) (name : HString) (s : HString) :
    SetValue.from_option true fl name (.Str s) =
      (if name = "fillchars" ∨ name = "listchars" ∨ name = "winhl" then
        .ok (.Map (collectMap
          ((((splitOnChar ',' s.data).map String.mk).filter
              fun e => !(e == "")).filterMap fun entry =>
            (splitOnceChar ':' entry.data).map fun q =>
              (String.mk q.1, String.mk q.2))))
      else .ok (.List ((splitOnChar ',' s.data).map String.mk))) := rfl

/-- Round trip of the comma-list List branch: re-reading the comma-joined
serialization of a parsed list yields the same list. -/
theorem roundtrip_list_branch (fl : HBool) (s : List Char) (name : HString)
    (hname : ¬(name = "fillchars" ∨ name = "listchars" ∨ name = "winhl")) :
    SetValue.from_option true fl name
      (SetValue.to_object (.List ((splitOnChar ',' s).map String.mk))) =
      .ok (.List ((splitOnChar ',' s).map String.mk)) := by
  rw [show SetValue.to_object (.List ((splitOnChar ',' s).map String.mk)) =
      .Str (String.mk (joinSep ','
        (((splitOnChar ',' s).map String.mk).map String.data))) from rfl,
    map_data_mk, from_option_commalist, if_neg hname,
    show (String.mk (joinSep ',' (splitOnChar ',' s))).data =
      joinSep ',' (splitOnChar ',' s) from rfl,
    splitOnChar_joinSep ',' _ (splitOnChar_ne_nil ',' s)
      (splitOnChar_not_mem ',' s)]

/-- Round trip of the comma-list Map branch: re-reading the comma-joined
`key:value` serialization of a parsed map yields the same map. -/
theorem roundtrip_map_branch (fl : HBool) (s : List Char) (name : HString)
    (hname : name = "fillchars" ∨ name = "listchars" ∨ name = "winhl") :
    SetValue.from_option true fl name
      (SetValue.to_object (.Map (collectMap
        ((((splitOnChar ',' s).map String.mk).filter
            fun e => !(e == "")).filterMap fun entry =>
          (splitOnceChar ':' entry.data).map fun q =>
            (String.mk q.1, String.mk q.2))))) =
      .ok (.Map (collectMap
        ((((splitOnChar ',' s).map String.mk).filter
            fun e => !(e == "")).filterMap fun entry =>
          (splitOnceChar ':' entry.data).map fun q =>
            (String.mk q.1, String.mk q.2)))) := by
  have hprops : ∀ p ∈ collectMap
      ((((splitOnChar ',' s).map String.mk).filter
          fun e => !(e == "")).filterMap fun entry =>
        (splitOnceChar ':' entry.data).map fun q =>
          (String.mk q.1, String.mk q.2)),
      ',' ∉ p.1.data ∧ ',' ∉ p.2.data ∧ ':' ∉ p.1.data :=
    fun p hp => mem_parsed_pairs s p (mem_collectMap _ p hp)
  have hkeys := nodupKeys_collectMap
    ((((splitOnChar ',' s).map String.mk).filter
        fun e => !(e == "")).filterMap fun entry =>
      (splitOnceChar ':' entry.data).map fun q =>
        (String.mk q.1, String.mk q.2))
  generalize hM : collectMap
      ((((splitOnChar ',' s).map String.mk).filter
          fun e => !(e == "")).filterMap fun entry =>
        (splitOnceChar ':' entry.data).map fun q =>
          (String.mk q.1, String.mk q.2)) = M at hprops hkeys ⊢
  clear hM
  cases M with
  | nil =>
    rw [show SetValue.to_object (SetValue.Map ([] : List (HString × HString))) =
        Object.Str (String.mk []) from rfl,
      from_option_commalist, if_pos hname]
    rfl
  | cons p M' =>
    have hsep : ∀ ed ∈ (p :: M').map fun q => q.1.data ++ ':' :: q.2.data,
        ',' ∉ ed := by
      intro ed hed
      obtain ⟨q, hq, rfl⟩ := List.mem_map.mp hed
      obtain ⟨h1, h2, -⟩ := hprops q hq
      intro hc
      rcases List.mem_append.mp hc with hin | hin
      · exact h1 hin
      · rcases List.mem_cons.mp hin with he | hin
        · exact absurd he (by decide)
        · exact h2 hin
    rw [show SetValue.to_object (SetValue.Map (p :: M')) =
        Object.Str (String.mk (joinSep ','
          ((p :: M').map fun q => q.1.data ++ ':' :: q.2.data))) from rfl,
      from_option_commalist, if_pos hname,
      show (String.mk (joinSep ','
          ((p :: M').map fun q => q.1.data ++ ':' :: q.2.data))).data =
        joinSep ',' ((p :: M').map fun q => q.1.data ++ ':' :: q.2.data)
        from rfl,
      splitOnChar_joinSep ',' _ (by simp) hsep]
    simp only [List.map_map, Function.comp_def]
    rw [filter_map_entries, filterMap_map_entries _
      (fun q hq => (hprops q hq).2.2),
      collectMap_of_nodupKeys _ hkeys]

theorem removeFirst_cons (a x : HString) (l : List HString) :
    removeFirst (a :: l) x = if a = x then l else a :: removeFirst l x := by
  unfold removeFirst
  rw [List.findIdx?_cons]
  by_cases h : a = x
  · simp [h]
  · rw [if_neg (by simpa using h), List.findIdx?_succ]
    rcases hf : l.findIdx? (fun v => v = x) with _ | i <;> simp [h]

theorem removeFirst_not_mem (l : List HString) (x : HString) (h : x ∉ l) :
    removeFirst l x = l := by
  induction l with
  | nil => rfl
  | cons a as ih =>
    rw [removeFirst_cons, if_neg (by rintro rfl; exact h (List.mem_cons_self a as)),
      ih (fun m => h (List.mem_cons_of_mem a m))]

theorem removeFirst_append (xs ys : List HString) (x : HString) (h : x ∉ xs) :
    removeFirst (xs ++ x :: ys) x = xs ++ ys := by
  induction xs with
  | nil => rw [List.nil_append, removeFirst_cons, if_pos rfl, List.nil_append]
  | cons a as ih =>
    rw [List.cons_append, removeFirst_cons,
      if_neg (by rintro rfl; exact h (List.mem_cons_self a as)), List.cons_append,
      ih (fun m => h (List.mem_cons_of_mem a m))]

/-! ## Claim theorems -/

theorem wrap64_eq_self (n : Int) (h1 : -(2 ^ 63) ≤ n) (h2 : n < 2 ^ 63) :
    wrap64 n = n := by
  have e1 : (2 : Int) ^ 63 = 9223372036854775808 := by norm_num
  have e2 : (2 : Int) ^ 64 = 18446744073709551616 := by norm_num
  unfold wrap64
  rw [e1] at h1 h2 ⊢
  rw [e2, Int.emod_eq_of_lt (by omega) (by omega)]
  omega

/-- C1 counterexample: at current = i64::MIN and requested = 0, the
Integer `Remove` arm produces the wrapped value i64::MIN again, not the
mathematical requested − current = 2^63 the claim demands (which does not
fit in i64) — the universally quantified "produces r − c" is false on the
code at overflow. -/
theorem numeric_remove_overflow_counterexample :
    applyMatch (.Integer (-(2 ^ 63))) (.Integer 0) .Remove =
      some (.Integer (-(2 ^ 63))) ∧
    ((0 : Int) - (-(2 ^ 63))) = 2 ^ 63 ∧
    some (SetValue.Integer (-(2 ^ 63))) ≠
      some (SetValue.Integer ((0 : Int) - (-(2 ^ 63)))) := by
  refine ⟨?_, by norm_num, by decide⟩
  show some (SetValue.Integer (wrap64 ((0 : Int) - (-(2 ^ 63))))) = _
  decide

/-- C1 (amended): on Integer/Integer pairs `Remove` produces the 64-bit
wrap of requested − current (not current − requested) — exactly r − c
whenever that difference is in i64 range — and `Append` produces the
64-bit wrap of current + requested, exactly c + r when in range; on
Float/Float pairs the same operand order holds at the
exactly-representable instance: removing Float 2 from current Float 5
yields Float (−3), not Float 3, and appending yields Float 7. -/
theorem numeric_append_remove :
    (∀ c r : Int, applyMatch (.Integer c) (.Integer r) .Remove =
      some (.Integer (wrap64 (r - c)))) ∧
    (∀ c r : Int, applyMatch (.Integer c) (.Integer r) .Append =
      some (.Integer (wrap64 (c + r)))) ∧
    (∀ c r : Int, -(2 ^ 63) ≤ r - c → r - c < 2 ^ 63 →
      applyMatch (.Integer c) (.Integer r) .Remove = some (.Integer (r - c))) ∧
    (∀ c r : Int, -(2 ^ 63) ≤ c + r → c + r < 2 ^ 63 →
      applyMatch (.Integer c) (.Integer r) .Append = some (.Integer (c + r))) ∧
    applyMatch (.Float 5) (.Float 2) .Remove = some (.Float (-3)) ∧
    applyMatch (.Float 5) (.Float 2) .Remove ≠ some (.Float 3) ∧
    applyMatch (.Float 5) (.Float 2) .Append = some (.Float 7) := by
  refine ⟨fun c r => rfl, fun c r => rfl, ?_, ?_, ?_, ?_, ?_⟩
  · intro c r h1 h2
    show some (SetValue.Integer (wrap64 (r - c))) = _
    rw [wrap64_eq_self _ h1 h2]
  · intro c r h1 h2
    show some (SetValue.Integer (wrap64 (c + r))) = _
    rw [wrap64_eq_self _ h1 h2]
  · simp only [applyMatch, Option.some.injEq, SetValue.Float.injEq]
    norm_num
  · simp only [applyMatch, ne_eq, Option.some.injEq, SetValue.Float.injEq]
    norm_num
  · simp only [applyMatch, Option.some.injEq, SetValue.Float.injEq]
    norm_num

/-- C1 witness: the in-range Integer clauses applied at current 5,
requested 2. -/
theorem numeric_append_remove_witness :
    applyMatch (.Integer 5) (.Integer 2) .Remove = some (.Integer (2 - 5)) ∧
    applyMatch (.Integer 5) (.Integer 2) .Append = some (.Integer (5 + 2)) :=
  ⟨numeric_append_remove.2.2.1 5 2 (by norm_num) (by norm_num),
   numeric_append_remove.2.2.2.1 5 2 (by norm_num) (by norm_num)⟩

/-- C10: a bare-string set entry starting with "no" parses to an
assignment of `false` to the name with the leading "no" stripped, any
other bare string to an assignment of `true` to itself; hence the flag
shorthand never assigns `true` to a key beginning with "no". -/
theorem flag_entry_parsing :
    (∀ name : HString, ['n', 'o'].isPrefixOf name.data = true →
      setFromFlag name = [⟨String.mk (name.data.drop 2), .Assign, .Bool false⟩]) ∧
    (∀ name : HString, ['n', 'o'].isPrefixOf name.data = false →
      setFromFlag name = [⟨name, .Assign, .Bool true⟩]) ∧
    (∀ name key : HString, (⟨key, .Assign, .Bool true⟩ : Set) ∈ setFromFlag name →
      ['n', 'o'].isPrefixOf key.data = false) := by
  refine ⟨?_, ?_, ?_⟩
  · intro name h
    simp [setFromFlag, stripPrefixNo, h]
  · intro name h
    simp [setFromFlag, stripPrefixNo, h]
  · intro name key hmem
    rcases h : ['n', 'o'].isPrefixOf name.data with _ | _
    · simp only [setFromFlag, stripPrefixNo, h, Bool.false_eq_true, if_false,
        List.mem_singleton] at hmem
      cases hmem
      exact h
    · simp [setFromFlag, stripPrefixNo, h] at hmem

/-- C10 witness: the theorem applied at the flags "nowrap" and "wrap". -/
theorem flag_entry_parsing_witness :
    setFromFlag "nowrap" = [⟨"wrap", .Assign, .Bool false⟩] ∧
    setFromFlag "wrap" = [⟨"wrap", .Assign, .Bool true⟩] := by
  constructor
  · rw [flag_entry_parsing.1 "nowrap" (by decide)]
    decide
  · exact flag_entry_parsing.2.1 "wrap" (by decide)

/-- C3 counterexample: for the buffer-scoped option "spell" written in the
global application context (buffer flag false), `Set::apply` changes the
true global accessor's value from `false` to `true` — the claim that the
global value is left unchanged is false on the code (which writes both
`api::set_option` and the current buffer's accessor). -/
theorem buffer_scope_writes_global_counterexample :
    Set.apply bufInfos false ⟨"spell", .Assign, .Bool true⟩ bufStore =
      .ok ⟨[("spell", .Boolean true)], [("spell", .Boolean true)], [], []⟩ ∧
    lookupA [(("spell" : HString), Object.Boolean true)] "spell" ≠
      lookupA bufStore.global "spell" := by
  constructor
  · rfl
  · decide

/-- C3 amended: when the application context is global and the option's
scope is buffer-scoped, the value is applied to the buffer-scoped accessor
of the current buffer AND to the true global accessor (in that order), and
to no other accessor: window and local-override accessors, and every other
key of the touched accessors, are unchanged. -/
theorem buffer_scope_in_global_context :
    ∀ (name : HString) (value : SetValue) (st : Store),
      ∃ w, setOption .Buffer false = .ok w ∧
        w name value st = (st.writeGlobal name value).writeBuf name value ∧
        lookupA (w name value st).global name = some value.to_object ∧
        lookupA (w name value st).buflocal name = some value.to_object ∧
        (w name value st).winlocal = st.winlocal ∧
        (w name value st).localOpt = st.localOpt ∧
        (∀ n, n ≠ name →
          lookupA (w name value st).global n = lookupA st.global n ∧
          lookupA (w name value st).buflocal n = lookupA st.buflocal n) := by
  intro name value st
  refine ⟨_, rfl, rfl, ?_, ?_, rfl, rfl, ?_⟩
  · exact lookupA_insertReplace_self _ _ _
  · exact lookupA_insertReplace_self _ _ _
  · intro n hn
    exact ⟨lookupA_insertReplace_ne _ _ _ _ hn, lookupA_insertReplace_ne _ _ _ _ hn⟩

/-- C3 witness: the amended theorem applied at the "spell" fixture,
including the untouched-key clause at key "wrap". -/
theorem buffer_scope_in_global_context_witness :
    ∃ w, setOption .Buffer false = .ok w ∧
      lookupA (w "spell" (.Bool true) bufStore).global "spell" =
        some (Object.Boolean true) ∧
      lookupA (w "spell" (.Bool true) bufStore).global "wrap" =
        lookupA bufStore.global "wrap" := by
  obtain ⟨w, hok, -, hg, -, -, -, hother⟩ :=
    buffer_scope_in_global_context "spell" (.Bool true) bufStore
  exact ⟨w, hok, hg, (hother "wrap" (by decide)).1⟩

/-- C4 counterexample: in a sequence of two set operations where the first
resolves to an unsupported scope, `Config::apply`'s set loop returns the
scope error and the second operation is NOT applied — even though applying
it alone succeeds.  The claim that remaining operations continue is false
on the code. -/
theorem scope_error_aborts_counterexample :
    Config.applySets badScopeInfos false
      [⟨"badopt", .Assign, .Bool true⟩, ⟨"wrap", .Assign, .Bool true⟩]
      wrapStore = .error "Unsuported Option scope: Local" ∧
    Config.applySets badScopeInfos false [⟨"wrap", .Assign, .Bool true⟩]
      wrapStore = .ok ⟨[("wrap", .Boolean true)], [], [], []⟩ :=
  ⟨rfl, rfl⟩

/-- C4 amended: an option whose scope resolves to an unsupported scope
makes `Set::apply` return an error that propagates out of `Config::apply`'s
set loop, so the remaining operations in the sequence are not applied. -/
theorem scope_error_aborts :
    ∀ (infos : HString → Option OptionInfos) (buffer : HBool) (s : Set)
      (rest : List Set) (st : Store) (info : OptionInfos) (msg : HString),
      infos s.key = some info → info.scope = .Other msg →
      Config.applySets infos buffer (s :: rest) st =
        .error ("Unsuported Option scope: " ++ msg) := by
  intro infos buffer s rest st info msg h1 h2
  simp only [Config.applySets, Set.apply, h1, h2, setOption]
  rfl

/-- C4 witness: the amended theorem applied at the "badopt" fixture. -/
theorem scope_error_aborts_witness :
    Config.applySets badScopeInfos false
      [⟨"badopt", .Assign, .Bool false⟩] wrapStore =
      .error ("Unsuported Option scope: " ++ "Local") :=
  scope_error_aborts badScopeInfos false ⟨"badopt", .Assign, .Bool false⟩
    [] wrapStore ⟨false, false, "badopt", .Other "Local"⟩ "Local" rfl rfl

/-- Unfolding equation: `from_option` on a native (non-comma-list,
non-flag-list) option. -/
theorem from_option_native (name : HString) (object : Object) :
    SetValue.from_option false false name object =
      (match object with
      | .Boolean b => .ok (.Bool b)
      | .Float f => .ok (.Float f)
      | .Integer i => .ok (.Integer i)
      | _ => .error "from wrong type: expected string, boolean or float") := rfl

/-- Unfolding equation: `from_option` on a flag-list option. -/
theorem from_option_flaglist (name : HString) (object : Object) :
    SetValue.from_option false true name object =
      (match object with
      | .Str s => .ok (.Set (collectSet s.data))
      | _ => .error "from wrong type: expected string") := rfl

/-- C2: for every Value producible by `read` (`SetValue::from_option`),
re-reading its serialization (`to_object`) under the same option class
yields it back exactly — in this deterministic embedding of the hash
containers, equality of the model values is content equality of the Rust
values, so List/Map/Set content round-trips and scalars are unchanged. -/
theorem read_write_roundtrip :
    ∀ (cl fl : HBool) (name : HString) (object : Object) (v : SetValue),
      SetValue.from_option cl fl name object = .ok v →
      SetValue.from_option cl fl name v.to_object = .ok v := by
  intro cl fl name object v h
  cases cl
  · cases fl
    · cases object with
      | Nil => simp [from_option_native] at h
      | Str s => simp [from_option_native] at h
      | Boolean b =>
        simp only [from_option_native, Except.ok.injEq] at h
        subst h; rfl
      | Float f =>
        simp only [from_option_native, Except.ok.injEq] at h
        subst h; rfl
      | Integer i =>
        simp only [from_option_native, Except.ok.injEq] at h
        subst h; rfl
    · cases object with
      | Nil => simp [from_option_flaglist] at h
      | Boolean b => simp [from_option_flaglist] at h
      | Float f => simp [from_option_flaglist] at h
      | Integer i => simp [from_option_flaglist] at h
      | Str s =>
        simp only [from_option_flaglist, Except.ok.injEq] at h
        subst h
        show SetValue.from_option false true name
          (.Str (String.mk (collectSet s.data))) = _
        rw [from_option_flaglist]
        show Except.ok (SetValue.Set (collectSet (collectSet s.data))) = _
        rw [collectSet_of_nodup _ (collectSet_nodup _)]
  · cases object with
    | Nil => simp [SetValue.from_option] at h
    | Boolean b => simp [SetValue.from_option] at h
    | Float f => simp [SetValue.from_option] at h
    | Integer i => simp [SetValue.from_option] at h
    | Str s =>
      rw [from_option_commalist] at h
      by_cases hname : name = "fillchars" ∨ name = "listchars" ∨ name = "winhl"
      · rw [if_pos hname, Except.ok.injEq] at h
        subst h
        exact roundtrip_map_branch fl s.data name hname
      · rw [if_neg hname, Except.ok.injEq] at h
        subst h
        exact roundtrip_list_branch fl s.data name hname

/-- C2 witness: the round trip applied to a producible comma-list value. -/
theorem read_write_roundtrip_witness :
    SetValue.from_option true false "path"
      ((SetValue.List ["a", "b"]).to_object) = .ok (.List ["a", "b"]) :=
  read_write_roundtrip true false "path" (.Str "a,b") (.List ["a", "b"]) rfl

/-- C5: approving a path records the digest of its current content, so an
immediately following check of the same content classifies it trusted;
a path whose recorded digest differs from its current content's digest, or
with no recorded digest, is not trusted and is partitioned into the
unhashed (unknown) side. -/
theorem trust_gate_classification :
    (∀ (digest : HString → List Nat) (h : Hashes) (path config : HString),
      (h.add_hash digest path config).is_hashed digest path config = true) ∧
    (∀ (digest : HString → List Nat) (h : Hashes) (path config : HString)
      (d : List Nat), lookupA h.entries path = some d → digest config ≠ d →
      h.is_hashed digest path config = false) ∧
    (∀ (digest : HString → List Nat) (h : Hashes) (path config : HString),
      lookupA h.entries path = none → h.is_hashed digest path config = false) ∧
    (∀ (digest : HString → List Nat) (h : Hashes)
      (files : List (HString × HString × Config)) (f : HString × HString × Config),
      f ∈ files → h.is_hashed digest f.1 f.2.1 = false →
      f.1 ∈ (h.unhashed digest files).1) := by
  refine ⟨?_, ?_, ?_, ?_⟩
  · intro digest h path config
    simp [Hashes.is_hashed, Hashes.add_hash, lookupA_insertReplace_self]
  · intro digest h path config d hl hne
    simp only [Hashes.is_hashed, hl]
    simpa using Ne.symm hne
  · intro digest h path config hl
    simp [Hashes.is_hashed, hl]
  · intro digest h files f hf hfalse
    exact mem_partitionMap_left _ files f f.1 hf (by simp [hfalse])

/-- C5 witness: the theorem applied with a length digest, an approved
path, a stale entry, and a missing entry. -/
theorem trust_gate_classification_witness :
    (Hashes.add_hash (fun s => [s.length]) ⟨[]⟩ "p" "cfg").is_hashed
      (fun s => [s.length]) "p" "cfg" = true ∧
    Hashes.is_hashed (fun s => [s.length]) ⟨[("p", [99])]⟩ "p" "cfg" = false ∧
    Hashes.is_hashed (fun s => [s.length]) ⟨[]⟩ "p" "cfg" = false ∧
    "p" ∈ ((⟨[("p", [99])]⟩ : Hashes).unhashed (fun s => [s.length])
      [("p", "cfg", emptyConfig)]).1 :=
  ⟨trust_gate_classification.1 _ _ _ _,
   trust_gate_classification.2.1 _ _ "p" "cfg" [99] (by decide) (by decide),
   trust_gate_classification.2.2.1 _ _ "p" "cfg" rfl,
   trust_gate_classification.2.2.2 _ _ _ ("p", "cfg", emptyConfig)
     (by simp) (by decide)⟩

/-- C9: loading the ledger when the persisted file is absent or cannot be
deserialized yields the empty ledger without an error (the loader's type
has no error case), and classification against the empty ledger puts every
source on the unknown side. -/
theorem ledger_load_degrades :
    (∀ decode : List Nat → Option Hashes,
      Hashes.loadOrDefault none decode = ⟨[]⟩) ∧
    (∀ (bytes : List Nat) (decode : List Nat → Option Hashes),
      decode bytes = none → Hashes.loadOrDefault (some bytes) decode = ⟨[]⟩) ∧
    (∀ (digest : HString → List Nat) (files : List (HString × HString × Config)),
      Hashes.unhashed digest ⟨[]⟩ files = (files.map fun f => f.1, [])) := by
  refine ⟨fun decode => rfl, ?_, ?_⟩
  · intro bytes decode hd
    simp [Hashes.loadOrDefault, hd]
  · intro digest files
    induction files with
    | nil => rfl
    | cons f fs ih =>
      simp only [Hashes.unhashed, partitionMap] at ih ⊢
      rw [ih]
      simp [Hashes.is_hashed, lookupA]

/-- C9 witness: the theorem applied to an absent ledger, an undecodable
ledger, and one source file. -/
theorem ledger_load_degrades_witness :
    Hashes.loadOrDefault none (fun _ => some ⟨[("x", [1])]⟩) = ⟨[]⟩ ∧
    Hashes.loadOrDefault (some [7]) (fun _ => none) = ⟨[]⟩ ∧
    Hashes.unhashed (fun s => [s.length]) ⟨[]⟩ [("p", "cfg", emptyConfig)] =
      (["p"], []) :=
  ⟨ledger_load_degrades.1 _,
   ledger_load_degrades.2.1 [7] _ rfl,
   ledger_load_degrades.2.2 _ _⟩

/-- C6: a fragment under a two-value condition is replicated,
content-identical, into the bucket of each atomic single-value condition
and not into the default bucket; a fragment with no conditions (or only
empty-value conditions) goes into exactly the default bucket. -/
theorem aggregation_replication :
    (∀ (f : Config) (a b : HString), a ≠ b → f.conditions = [⟨[a, b]⟩] →
      lookupA (f.merge_into_hashmap []) ⟨[a]⟩ = some f ∧
      lookupA (f.merge_into_hashmap []) ⟨[b]⟩ = some f ∧
      lookupA (f.merge_into_hashmap []) Condition.default = none) ∧
    (∀ f : Config, f.conditions.flatMap Condition.into_iter = [] →
      f.merge_into_hashmap [] = [(Condition.default, f)]) := by
  constructor
  · intro f a b hab hcond
    simp only [Config.merge_into_hashmap, hcond]
    simp [Condition.into_iter, lookupA, Condition.default, hab, Ne.symm hab]
  · intro f hcond
    simp [Config.merge_into_hashmap, hcond, lookupA]

/-- C6 witness: the theorem applied to a fragment conditioned on filetypes
"a" and "b", and to an unconditioned fragment. -/
theorem aggregation_replication_witness :
    (lookupA ((⟨[⟨["a", "b"]⟩], [], [], []⟩ : Config).merge_into_hashmap [])
      ⟨["a"]⟩ = some ⟨[⟨["a", "b"]⟩], [], [], []⟩ ∧
     lookupA ((⟨[⟨["a", "b"]⟩], [], [], []⟩ : Config).merge_into_hashmap [])
      ⟨["b"]⟩ = some ⟨[⟨["a", "b"]⟩], [], [], []⟩ ∧
     lookupA ((⟨[⟨["a", "b"]⟩], [], [], []⟩ : Config).merge_into_hashmap [])
      Condition.default = none) ∧
    emptyConfig.merge_into_hashmap [] = [(Condition.default, emptyConfig)] :=
  ⟨aggregation_replication.1 ⟨[⟨["a", "b"]⟩], [], [], []⟩ "a" "b"
    (by decide) rfl,
   aggregation_replication.2 emptyConfig rfl⟩

/-- C7: merging a later fragment into the bucket already holding an
earlier one concatenates the ordered fields in arrival order —
keys, set and auto_commands each become earlier ++ later. -/
theorem merge_preserves_arrival_order :
    ∀ (f1 f2 : Config) (x : HString), f2.conditions = [⟨[x]⟩] →
      lookupA (f2.merge_into_hashmap [(⟨[x]⟩, f1)]) ⟨[x]⟩ =
        some (f1.merge f2) ∧
      (f1.merge f2).keys = f1.keys ++ f2.keys ∧
      (f1.merge f2).set = f1.set ++ f2.set ∧
      (f1.merge f2).auto_commands = f1.auto_commands ++ f2.auto_commands := by
  intro f1 f2 x hcond
  refine ⟨?_, rfl, rfl, rfl⟩
  simp only [Config.merge_into_hashmap, hcond]
  simp [Condition.into_iter, lookupA, lookupA_insertReplace_self]

/-- C8: Remove on a current List deletes, per requested element, at most
the first matching element of the current list, leaving later duplicates
in place; a requested String behaves as a one-element list; in particular
["a","b","a"] minus ["a"] is ["b","a"]. -/
theorem list_remove_first_match :
    (∀ current values, applyMatch (.List current) (.List values) .Remove =
      some (.List (values.foldl removeFirst current))) ∧
    (∀ current value, applyMatch (.List current) (.String value) .Remove =
      some (.List (removeFirst current value))) ∧
    (∀ (xs ys : List HString) (x : HString), x ∉ xs →
      removeFirst (xs ++ x :: ys) x = xs ++ ys) ∧
    (∀ (l : List HString) (x : HString), x ∉ l → removeFirst l x = l) ∧
    applyMatch (.List ["a", "b", "a"]) (.List ["a"]) .Remove =
      some (.List ["b", "a"]) := by
  refine ⟨fun current values => rfl, fun current value => rfl,
    removeFirst_append, removeFirst_not_mem, ?_⟩
  decide

/-- C8 witness: the first-match lemmas applied at concrete lists. -/
theorem list_remove_first_match_witness :
    removeFirst (["b"] ++ "a" :: ["c", "a"]) "a" = ["b"] ++ ["c", "a"] ∧
    removeFirst ["b", "c"] "a" = ["b", "c"] :=
  ⟨list_remove_first_match.2.2.1 ["b"] ["c", "a"] "a" (by decide),
   list_remove_first_match.2.2.2.1 ["b", "c"] "a" (by decide)⟩

/-- C7 witness: the theorem applied to two concrete fragments carrying
one set instruction each. -/
theorem merge_preserves_arrival_order_witness :
    lookupA ((⟨[⟨["rust"]⟩], [], [⟨"b", .Assign, .Bool false⟩], []⟩ : Config
      ).merge_into_hashmap
        [(⟨["rust"]⟩, ⟨[], [], [⟨"a", .Assign, .Bool true⟩], []⟩)]) ⟨["rust"]⟩ =
      some ⟨[], [],
        [⟨"a", .Assign, .Bool true⟩, ⟨"b", .Assign, .Bool false⟩], []⟩ := by
  have h := merge_preserves_arrival_order
    ⟨[], [], [⟨"a", .Assign, .Bool true⟩], []⟩
    ⟨[⟨["rust"]⟩], [], [⟨"b", .Assign, .Bool false⟩], []⟩ "rust" rfl
  rw [h.1]
  rfl

end ConfigNvim
